import Mathlib

/-!
# Verification of the hf-rag retrieval core

Shallow embedding of the repository's retrieval core:
* `src/chunking/catalog_extractor.py` — `CatalogExtractor.extract`
* `src/chunking/catalog_splitter.py` — `CatalogBasedSplitter.split`
* `src/retrieval/search.py` — `VectorStore` (`add_document`, `_persist`, `_load`,
  `search`, `search_catalog_fulltext`, accessors)

Python strings are modelled by Lean `String` (a wrapper around `List Char` in
this toolchain); Python's float vectors by `List ℚ` (exact rationals, so the
"within floating tolerance" round-trip comparisons are exact equalities);
Python dicts by insertion-ordered association lists, mirroring CPython's
insertion-ordered `dict`.
-/

namespace HfRag

/-! ## String helpers mirroring Python built-ins -/

/-- The whitespace characters recognised by Python's `str.strip()` / `\s`
(restricted to the ASCII range; the inputs handled here contain no other
whitespace). -/
def isPySpace (c : Char) : Bool :=
  c = ' ' || c = '\t' || c = '\n' || c = '\r' || c = '\x0b' || c = '\x0c'

/-- Python `str.strip()` with no arguments. -/
def pyStrip (s : String) : String :=
  ⟨(s.data.dropWhile isPySpace).reverse.dropWhile isPySpace |>.reverse⟩

/-- Python `str.lower()` (ASCII case folding; the catalog strings handled
here have no locale-dependent case behaviour). -/
def pyLower (s : String) : String :=
  ⟨s.data.map Char.toLower⟩

/-- `isPrefixList n h` is true when `n` is a prefix of `h`. -/
def isPrefixList : List Char → List Char → Bool
  | [], _ => true
  | _ :: _, [] => false
  | a :: as, b :: bs => a = b && isPrefixList as bs

/-- `isSubList n h` is true when `n` occurs contiguously in `h`; mirrors
Python's `n in h` on strings (the empty needle always matches). -/
def isSubList (n : List Char) : List Char → Bool
  | [] => n.isEmpty
  | c :: rest => isPrefixList n (c :: rest) || isSubList n rest

/-- Python's substring test `needle in haystack`. -/
def isSubstr (needle haystack : String) : Bool :=
  isSubList needle.data haystack.data

/-- `splitChars sep cs` splits `cs` at every occurrence of `sep`;
mirrors Python `str.split(sep)` for a one-character separator
(the empty input yields one empty field). -/
def splitChars (sep : Char) : List Char → List (List Char)
  | [] => [[]]
  | c :: cs =>
    if c = sep then [] :: splitChars sep cs
    else
      match splitChars sep cs with
      | h :: t => (c :: h) :: t
      | [] => [[c]]

/-- Python `text.split('\n')`. -/
def splitLines (s : String) : List String :=
  (splitChars '\n' s.data).map (fun cs => ⟨cs⟩)

/-- Python `'\n'.join(lines)`. -/
def joinLines (ls : List String) : String :=
  String.intercalate "\n" ls

/-- Python `content.split('\n\n')` (split on the two-character separator,
non-overlapping, left to right). -/
def splitBlank : List Char → List Char → List String
  | acc, [] => [⟨acc.reverse⟩]
  | acc, '\n' :: '\n' :: rest => ⟨acc.reverse⟩ :: splitBlank [] rest
  | acc, c :: rest => splitBlank (c :: acc) rest

/-- Python `content.split('\n\n')` on a string. -/
def splitParagraphSep (s : String) : List String :=
  splitBlank [] s.data

/-! ## Catalog extractor (`src/chunking/catalog_extractor.py`)

Nodes are held in an arena (creation order equals the order of the Python
`catalog_items` list); `parent` and `children` are arena indices, replacing
the Python object back-references (spec §9 recommends exactly this arena
representation). -/

/-- `CatalogItem` from `catalog_extractor.py` (arena-indexed
`parent`/`children`). -/
structure CatalogItem where
  level : Nat
  title : String
  start_line : Nat
  end_line : Option Nat := none
  parent : Option Nat := none
  children : List Nat := []
deriving DecidableEq, Repr, Inhabited

/-- The header test `re.match(r'^(#{1,6})\s+(.+)$', line)` of
`CatalogExtractor.header_pattern`: a run of one to six `#`, then at least one
whitespace character, then at least one further character.  The regex's
`group(2).strip()` equals the whole remainder stripped (the greedy `\s+`
backtracks at most one character, which `strip` removes again). -/
def headerMatch (line : String) : Option (Nat × String) :=
  let cs := line.data
  let p := (cs.takeWhile (· = '#')).length
  if 1 ≤ p ∧ p ≤ 6 then
    match cs.drop p with
    | c :: _ :: _ =>
      if isPySpace c then some (p, pyStrip ⟨cs.drop p⟩) else none
    | _ => none
  else none

/-- Intermediate state of `CatalogExtractor.extract`'s loop:
the arena of created items, the stack of open items (head = Python
`stack[-1]`), and the output lines.  Each Python `markdown_with_anchors`
entry for a header holds an embedded `'\n'`, so it contributes two entries
here; joining with `'\n'` and re-splitting (as `split` does) yields exactly
this line list, since titles and lines contain no `'\n'`. -/
structure ExtractState where
  arena : List CatalogItem
  stack : List Nat
  outLines : List String
deriving Repr

/-- `CatalogItem.get_full_path`: `" > "`-joined titles from root to the
node, walking `parent` links.  Fuel-based recursion; in every arena built by
`extract` a node's parent index is strictly smaller than its own, so
`arena.length` fuel always suffices. -/
def fullPathAux (arena : List CatalogItem) : Nat → Nat → List String
  | 0, j => [(arena.getD j default).title]
  | fuel + 1, j =>
    let it := arena.getD j default
    match it.parent with
    | none => [it.title]
    | some p => fullPathAux arena fuel p ++ [it.title]

/-- `CatalogItem.get_full_path` on arena index `j`. -/
def fullPath (arena : List CatalogItem) (j : Nat) : String :=
  String.intercalate " > " (fullPathAux arena arena.length j)

/-- One iteration of the `for i, line in enumerate(lines)` loop of
`CatalogExtractor.extract`.  On a header: pop the stack while its top's
level is `>=` the new level (the popped items are *not* closed); set the
parent to the new stack top; close the first remaining stack item whose
level is `<` the new level (if its `end_line` is still `None`) to `i - 1`;
append the new item to the arena, to the parent's children and to the
stack; emit the line and the anchor comment.  The close step can only fire
when the stack is non-empty, which forces `i ≥ 1`, so the `Nat`
subtraction `i - 1` agrees with Python. -/
def extractStep (st : ExtractState) (i : Nat) (line : String) : ExtractState :=
  match headerMatch line with
  | none => { st with outLines := st.outLines ++ [line] }
  | some (level, title) =>
    let stack1 := st.stack.dropWhile (fun j => level ≤ (st.arena.getD j default).level)
    let parent := stack1.head?
    let idx := st.arena.length
    let item : CatalogItem := { level := level, title := title, start_line := i, parent := parent }
    let arena1 :=
      match stack1.find? (fun j => (st.arena.getD j default).level < level) with
      | some j =>
        let old := st.arena.getD j default
        if old.end_line = none then st.arena.set j { old with end_line := some (i - 1) }
        else st.arena
      | none => st.arena
    let arena2 := arena1 ++ [item]
    let arena3 :=
      match parent with
      | some p =>
        let po := arena2.getD p default
        arena2.set p { po with children := po.children ++ [idx] }
      | none => arena2
    { arena := arena3
      stack := idx :: stack1
      outLines := st.outLines ++ [line, "<!-- catalog:" ++ fullPath arena3 idx ++ " -->"] }

/-- `CatalogExtractor.extract` over a pre-split line list: run the loop,
then close every item still on the stack (whose `end_line` is `None`) to
`lines.length - 1` (Python's final `current_line - 1`). -/
def extractLines (lines : List String) : List CatalogItem × List String :=
  let st := lines.enum.foldl (fun s p => extractStep s p.1 p.2) ⟨[], [], []⟩
  let n := lines.length
  let arena := st.stack.foldl
    (fun a j =>
      let old := a.getD j default
      if old.end_line = none then a.set j { old with end_line := some (n - 1) } else a)
    st.arena
  (arena, st.outLines)

/-- `CatalogExtractor.extract(markdown)`: split into lines, run the loop,
return the items and the anchored markdown. -/
def extract (markdown : String) : List CatalogItem × String :=
  let (items, outLines) := extractLines (splitLines markdown)
  (items, joinLines outLines)

/-! ## Metadata dictionaries

Python `dict[str, ...]` values are modelled as insertion-ordered association
lists with unique keys, matching CPython's insertion-ordered `dict`. -/

/-- A metadata value: the chunk metadata built by the splitter and the store
holds strings, non-negative integers and booleans. -/
inductive MValue
  | s (v : String)
  | n (v : Nat)
  | b (v : Bool)
deriving DecidableEq, Repr, Inhabited

/-- A Python `dict` as an insertion-ordered association list. -/
abbrev Dict (α : Type) := List (String × α)

/-- Python `d[k] = v`: replace in place when the key exists (keeping its
position, as CPython does), otherwise append. -/
def dictInsert {α : Type} (k : String) (v : α) (d : Dict α) : Dict α :=
  if d.any (·.1 = k) then d.map (fun p => if p.1 = k then (k, v) else p)
  else d ++ [(k, v)]

/-- Python `{**base, **overrides}`. -/
def dictUnion {α : Type} (base overrides : Dict α) : Dict α :=
  overrides.foldl (fun d p => dictInsert p.1 p.2 d) base

/-- Chunk metadata map. -/
abbrev Metadata := Dict MValue

/-- Python `d.get(k)`. -/
def dget (d : Metadata) (k : String) : Option MValue :=
  (d.find? (·.1 = k)).map (·.2)

/-- Python `d.get(k, dflt)` where the call site uses the value as a string;
the defaulting also applies to a non-string value, which never occurs in
states built by this code. -/
def getStrD (d : Metadata) (k dflt : String) : String :=
  match dget d k with
  | some (.s v) => v
  | _ => dflt

/-- Python `d.get(k, dflt)` where the call site uses the value as an
integer. -/
def getNatD (d : Metadata) (k : String) (dflt : Nat) : Nat :=
  match dget d k with
  | some (.n v) => v
  | _ => dflt

/-! ## Catalog splitter (`src/chunking/catalog_splitter.py`) -/

/-- The greedy paragraph-grouping loop shared verbatim by
`CatalogBasedSplitter._split_large_section` and
`CatalogBasedSplitter._fallback_split` (their bodies are identical):
split on blank lines, strip each paragraph, drop empty ones, then
accumulate paragraphs greedily up to `max_chunk_size` characters per group
(`+2` accounting for the `"\n\n"` joiner); a run that would overflow a
non-empty group starts a new group.  Returns `[content]` when no group was
produced. -/
def greedyParagraphSplit (maxc : Nat) (content : String) : List String :=
  let paragraphs := ((splitParagraphSep content).map pyStrip).filter (· ≠ "")
  let step := fun (acc : List String × List String × Nat) (para : String) =>
    let (chunks, cur, size) := acc
    if maxc < size + para.length ∧ cur ≠ [] then
      (chunks ++ [String.intercalate "\n\n" cur], [para], para.length)
    else (chunks, cur ++ [para], size + para.length + 2)
  let fin := paragraphs.foldl step ([], [], 0)
  let chunks := if fin.2.1 ≠ [] then fin.1 ++ [String.intercalate "\n\n" fin.2.1] else fin.1
  if chunks ≠ [] then chunks else [content]

/-- Metadata for a sub-chunk of an oversized section
(`catalog_splitter.py` lines 42-48). -/
def subChunkMeta (path : String) (item : CatalogItem) (idx : Nat) : Metadata :=
  [("catalog_path", .s path), ("catalog_title", .s item.title),
   ("catalog_level", .n item.level), ("chunk_index", .n idx),
   ("is_subchunk", .b true)]

/-- Metadata for a whole-section chunk (`catalog_splitter.py` lines 52-58). -/
def wholeSectionMeta (path : String) (item : CatalogItem) : Metadata :=
  [("catalog_path", .s path), ("catalog_title", .s item.title),
   ("catalog_level", .n item.level), ("chunk_index", .n 0),
   ("is_subchunk", .b false)]

/-- Fallback metadata (`catalog_splitter.py` line 63); the literal value is
the Chinese word `"未分类"` ("uncategorized"). -/
def fallbackMeta : Metadata :=
  [("catalog_path", .s "未分类"), ("catalog_title", .s "未分类"),
   ("catalog_level", .n 0)]

/-- `lines[item.start_line : item.end_line + 1]` joined and stripped, as in
`CatalogBasedSplitter.split` lines 30-31 (the slice is over the anchored
lines returned by the extractor). -/
def sectionSlice (plines : List String) (item : CatalogItem) (e : Nat) : String :=
  pyStrip (String.intercalate "\n" ((plines.drop item.start_line).take (e + 1 - item.start_line)))

/-- The chunk/metadata pairs one catalog item contributes in the loop of
`CatalogBasedSplitter.split`: nothing when `end_line` is `None` or the
stripped slice is empty; the sub-chunks of `_split_large_section` when the
slice exceeds `max_chunk_size`; otherwise the whole stripped slice. -/
def nodeEmission (maxc : Nat) (plines : List String) (path : String)
    (item : CatalogItem) : List (String × Metadata) :=
  match item.end_line with
  | none => []
  | some e =>
    let sec := sectionSlice plines item e
    if sec = "" then []
    else if maxc < sec.length then
      (greedyParagraphSplit maxc sec).enum.map
        (fun p => (p.2, subChunkMeta path item p.1))
    else [(sec, wholeSectionMeta path item)]

/-- `CatalogBasedSplitter.split(markdown)`: extract the catalog, emit
chunk/metadata pairs per item in catalog order (appending, as the Python
loop does), and fall back to `_fallback_split` over the whole input with
`fallbackMeta` when no chunk was produced.  `minc` is the source's
`min_chunk_size`, accepted but never used (as in the source). -/
def split (minc maxc : Nat) (markdown : String) :
    List CatalogItem × List String × List Metadata :=
  let ex := extractLines (splitLines markdown)
  let arena := ex.1
  let plines := ex.2
  let step := fun (acc : List String × List Metadata) (p : Nat × CatalogItem) =>
    let em := nodeEmission maxc plines (fullPath arena p.1) p.2
    (acc.1 ++ em.map Prod.fst, acc.2 ++ em.map Prod.snd)
  let res := arena.enum.foldl step ([], [])
  if res.1 = [] then
    let fb := greedyParagraphSplit maxc markdown
    (arena, fb, fb.map (fun _ => fallbackMeta))
  else (arena, res.1, res.2)

/-! ## Store (`src/retrieval/search.py`) -/

/-- `ChunkRecord` from `search.py`; the `np.float32` vector is modelled as
an exact rational vector. -/
structure ChunkRecord where
  chunk_id : String
  document_id : String
  content : String
  vector : List ℚ
  metadata : Metadata
deriving DecidableEq, Repr, Inhabited

/-- `DocumentMetadata` (from `src/api/models.py`, used by the store);
`created_at` is the ISO-8601 timestamp modelled as an opaque string (the
`datetime → isoformat → parse` round trip is the identity on it). -/
structure DocumentMetadata where
  document_id : String
  filename : String
  source_path : String
  parsed_path : String
  created_at : String
  num_chunks : Nat
  content_type : String
deriving DecidableEq, Repr, Inhabited

/-- The in-memory state of `VectorStore`: `_chunks` and the
insertion-ordered `_documents` dict. -/
structure StoreState where
  chunks : List ChunkRecord
  documents : Dict DocumentMetadata
deriving DecidableEq, Repr, Inhabited

/-- A durable artifact as found on disk: missing, present but unparseable
(a `pickle.load` / `json.load` / model-validation failure), or present with
parsed content. -/
inductive Artifact (α : Type)
  | absent
  | corrupt
  | good (data : α)
deriving DecidableEq, Repr

/-- One entry of the serialized chunk list written to `index.pkl`
(`VectorStore._persist` lines 77-86); `vector.tolist()` and
`np.array(..., dtype=np.float32)` are mutually inverse in the rational
model. -/
structure SerChunk where
  chunk_id : String
  document_id : String
  content : String
  vector : List ℚ
  metadata : Metadata
deriving DecidableEq, Repr

/-- The two durable artifacts (`index.pkl`, `documents.json`). -/
structure DiskState where
  index : Artifact (List SerChunk)
  documents : Artifact (List DocumentMetadata)
deriving DecidableEq, Repr

/-- Serialization of one chunk in `_persist`. -/
def serChunk (c : ChunkRecord) : SerChunk :=
  ⟨c.chunk_id, c.document_id, c.content, c.vector, c.metadata⟩

/-- Deserialization of one chunk in `_load` lines 44-53. -/
def deserChunk (s : SerChunk) : ChunkRecord :=
  ⟨s.chunk_id, s.document_id, s.content, s.vector, s.metadata⟩

/-- `VectorStore._persist`: rewrite both artifacts from the full in-memory
state (`documents.json` holds `self._documents.values()` in insertion
order). -/
def persist (st : StoreState) : DiskState :=
  ⟨.good (st.chunks.map serChunk), .good (st.documents.map (·.2))⟩

/-- The error raised out of `VectorStore._load` when an artifact exists but
cannot be parsed (the source wraps neither `pickle.load` nor `json.load`
in a handler, so the exception propagates out of `__init__`). -/
inductive LoadError
  | indexUnparseable
  | documentsUnparseable
deriving DecidableEq, Repr

/-- `VectorStore._load`, called from `__init__`: a missing artifact leaves
the corresponding collection empty; a present artifact is parsed, an
unparseable one raises.  (`index.pkl` is read first, as in the source;
`_documents` is rebuilt by the dict comprehension
`{doc["document_id"]: ... for doc in data}`, under which a later duplicate
id overwrites an earlier one.) -/
def load (disk : DiskState) : Except LoadError StoreState := do
  let chunks ← match disk.index with
    | .absent => pure []
    | .good data => pure (data.map deserChunk)
    | .corrupt => throw LoadError.indexUnparseable
  let docs ← match disk.documents with
    | .absent => pure []
    | .good data => pure (data.foldl (fun d m => dictInsert m.document_id m d) [])
    | .corrupt => throw LoadError.documentsUnparseable
  pure ⟨chunks, docs⟩

/-- Whether an `Except` result is a success. -/
def exceptOk {ε α : Type} : Except ε α → Bool
  | .ok _ => true
  | .error _ => false

/-- `VectorStore.add_document`.  `document_id` (a fresh `uuid4` in the
source) and `created_at` (the wall clock) are passed in explicitly.  There
is no validation: `zip(chunks, vectors)` silently truncates to the shorter
list, `num_chunks` is `len(chunks)` regardless, and a missing or
too-short `chunk_metadata_list` contributes `{}` (Python's truthiness test
makes `Some []` behave like `None`, which the `idx < length` test also
yields here).  Returns the new in-memory state, the returned
`DocumentMetadata` and the disk state written by the final `_persist`. -/
def addDocument (st : StoreState) (document_id created_at : String)
    (filename source_path parsed_path : String)
    (chunks : List String) (vectors : List (List ℚ)) (content_type : String)
    (chunk_metadata_list : Option (List Metadata)) :
    StoreState × DocumentMetadata × DiskState :=
  let metadata : DocumentMetadata :=
    ⟨document_id, filename, source_path, parsed_path, created_at,
     chunks.length, content_type⟩
  let docs := dictInsert document_id metadata st.documents
  let newRecords := (chunks.zip vectors).enum.map (fun p =>
    let idx := p.1
    let chunk_meta := match chunk_metadata_list with
      | some l => if idx < l.length then l.getD idx [] else []
      | none => []
    { chunk_id := document_id ++ ":" ++ toString idx
      document_id := document_id
      content := p.2.1
      vector := p.2.2
      metadata := dictUnion
        [("source", .s source_path), ("filename", .s filename),
         ("chunk_index", .n idx), ("created_at", .s created_at)]
        chunk_meta : ChunkRecord })
  let st' : StoreState := ⟨st.chunks ++ newRecords, docs⟩
  (st', metadata, persist st')

/-- `VectorStore.list_documents`. -/
def listDocuments (st : StoreState) : List DocumentMetadata :=
  st.documents.map (·.2)

/-- `VectorStore.get_document`. -/
def getDocument (st : StoreState) (document_id : String) : Option DocumentMetadata :=
  (st.documents.find? (·.1 = document_id)).map (·.2)

/-- `VectorStore.get_chunks_by_document`. -/
def getChunksByDocument (st : StoreState) (document_id : String) : List ChunkRecord :=
  st.chunks.filter (·.document_id = document_id)

/-- `VectorStore.stats`. -/
def stats (st : StoreState) : Nat × Nat :=
  (st.documents.length, st.chunks.length)

/-! ## Search engine (`src/retrieval/search.py`) -/

/-- The candidate selection shared by `search` and
`search_catalog_fulltext`: `if document_id:` is Python truthiness, so both
`None` and the empty string leave the chunk list unfiltered. -/
def candidateChunks (st : StoreState) (docFilter : Option String) : List ChunkRecord :=
  match docFilter with
  | some d => if d = "" then st.chunks else st.chunks.filter (·.document_id = d)
  | none => st.chunks

/-- A result of `VectorStore.search` (the `ChunkResult` model). -/
structure ChunkResult where
  content : String
  score : ℚ
  metadata : Metadata
deriving DecidableEq, Repr, Inhabited

/-- Descending insertion of an `(index, score)` pair, keeping earlier
elements first among equal scores. -/
def insertDesc (x : Nat × ℚ) : List (Nat × ℚ) → List (Nat × ℚ)
  | [] => [x]
  | y :: ys => if x.2 ≤ y.2 then y :: insertDesc x ys else x :: y :: ys

/-- `np.argsort(scores)[::-1]` modelled as a sort of the `(index, score)`
pairs with scores non-increasing (NumPy's order among tied scores is an
implementation detail of its unstable quicksort that the code's contract
does not rely on). -/
def sortDescBySnd (l : List (Nat × ℚ)) : List (Nat × ℚ) :=
  l.foldr insertDesc []

/-- The result-collection loop of `VectorStore.search` lines 229-242 over
the ranked window: `continue` past scores strictly below the threshold,
append otherwise, and `break` once `top_k` results have been collected
(`cnt` is `len(results)` so far). -/
def searchWalk (thr : ℚ) (k : Nat) : List (Nat × ℚ) → Nat → List (Nat × ℚ)
  | [], _ => []
  | p :: rest, cnt =>
    if p.2 < thr then searchWalk thr k rest cnt
    else if k ≤ cnt + 1 then [p]
    else p :: searchWalk thr k rest (cnt + 1)

/-- `VectorStore.search(query_vector, top_k, threshold, document_id)`.
The per-candidate score is `sim candidate.vector query`; `sim` abstracts
the source's epsilon-regularized cosine similarity
(`dot(v/(‖v‖+1e-10), q/(‖q‖+1e-10))`), whose float square roots have no
exact rational embedding — every theorem below holds for arbitrary `sim`.
Empty candidate sets return `[]` at the source's early returns; otherwise
the `(index, score)` pairs are ranked descending, the first
`top_k * 2` form the oversampled window, and the collection walk filters
by threshold and truncates to `top_k`. -/
def search (sim : List ℚ → List ℚ → ℚ) (st : StoreState) (query : List ℚ)
    (top_k : Nat) (threshold : ℚ) (docFilter : Option String) : List ChunkResult :=
  let cands := candidateChunks st docFilter
  if cands = [] then []
  else
    let pairs := cands.enum.map (fun p => (p.1, sim p.2.vector query))
    let ranked := (sortDescBySnd pairs).take (top_k * 2)
    (searchWalk threshold top_k ranked 0).map (fun p =>
      { content := (cands.getD p.1 default).content
        score := p.2
        metadata := (cands.getD p.1 default).metadata })

/-- One grouped result of `VectorStore.search_catalog_fulltext`. -/
structure CatalogGroupResult where
  catalog_path : String
  catalog_title : String
  catalog_level : Nat
  content : String
  chunks : List String
  document_id : String
deriving DecidableEq, Repr, Inhabited

/-- The grouping key of a chunk:
`chunk.metadata.get("catalog_path", "未分类")`. -/
def chunkCatalogPath (c : ChunkRecord) : String :=
  getStrD c.metadata "catalog_path" "未分类"

/-- One step of the grouping loop (`search_catalog_fulltext` lines
271-276): append the chunk to its group, creating the group at the end on
first sight (insertion-ordered dict). -/
def addToGroups (gs : Dict (List ChunkRecord)) (c : ChunkRecord) :
    Dict (List ChunkRecord) :=
  let key := chunkCatalogPath c
  if gs.any (·.1 = key) then
    gs.map (fun g => if g.1 = key then (g.1, g.2 ++ [c]) else g)
  else gs ++ [(key, [c])]

/-- `catalog_groups`: the candidates grouped by `catalog_path` in
discovery order. -/
def buildGroups (cands : List ChunkRecord) : Dict (List ChunkRecord) :=
  cands.foldl addToGroups []

/-- The grouped result emitted for a matching group (built identically in
both branches of the source): member contents in stored order, joined with
a blank line for `content`; title/level/document_id from the group's first
chunk.  (A group is never empty; `default` covers the impossible case.) -/
def mkGroupResult (path : String) (g : List ChunkRecord) : CatalogGroupResult :=
  match g with
  | [] => default
  | c0 :: _ =>
    { catalog_path := path
      catalog_title := getStrD c0.metadata "catalog_title" ""
      catalog_level := getNatD c0.metadata "catalog_level" 0
      content := String.intercalate "\n\n" (g.map (·.content))
      chunks := g.map (·.content)
      document_id := c0.document_id }

/-- One iteration of the group loop of `search_catalog_fulltext` (lines
281-312): emit the group when the lowered query is a substring of the
lowered `catalog_path` or `catalog_title`; otherwise scan member contents
and on the first content match emit the group unless a result with the
same `catalog_path` is already present. -/
def scfStep (ql : String) (results : List CatalogGroupResult)
    (g : String × List ChunkRecord) : List CatalogGroupResult :=
  match g.2 with
  | [] => results
  | c0 :: _ =>
    let title := getStrD c0.metadata "catalog_title" ""
    if isSubstr ql (pyLower g.1) || isSubstr ql (pyLower title) then
      results ++ [mkGroupResult g.1 g.2]
    else if g.2.any (fun c => isSubstr ql (pyLower c.content)) then
      if results.any (·.catalog_path = g.1) then results
      else results ++ [mkGroupResult g.1 g.2]
    else results

/-- Whether `scfStep` emits a result for a group: title/path substring
match, or some member content matches.  Used to characterise the loop. -/
def emitGroup (ql : String) (g : String × List ChunkRecord) :
    Option CatalogGroupResult :=
  match g.2 with
  | [] => none
  | c0 :: _ =>
    let title := getStrD c0.metadata "catalog_title" ""
    if isSubstr ql (pyLower g.1) || isSubstr ql (pyLower title)
        || g.2.any (fun c => isSubstr ql (pyLower c.content)) then
      some (mkGroupResult g.1 g.2)
    else none

/-- `VectorStore.search_catalog_fulltext(query, document_id)`. -/
def searchCatalogFulltext (st : StoreState) (query : String)
    (docFilter : Option String) : List CatalogGroupResult :=
  let ql := pyLower query
  let cands := candidateChunks st docFilter
  if cands = [] then []
  else (buildGroups cands).foldl (scfStep ql) []

/-- The member list of the group keyed `path` (empty when absent); used to
characterise `buildGroups`. -/
def groupLookup (gs : Dict (List ChunkRecord)) (path : String) : List ChunkRecord :=
  ((gs.find? (·.1 = path)).map Prod.snd).getD []

/-- The flattened per-node chunk/metadata emissions of the splitter's main
loop, in catalog order, with an oversized section's sub-chunks in local
order.  Used to characterise `split`. -/
def catalogEmissions (maxc : Nat) (md : String) : List (String × Metadata) :=
  let ex := extractLines (splitLines md)
  ((ex.1.enum.map (fun p => nodeEmission maxc ex.2 (fullPath ex.1 p.1) p.2)).flatten)

/-! ## Theorems -/

/-- C1 evidence: on `"# A\n## B\n# C"` the extractor closes `A` at line `0`
(the line just before `## B`: the loop closes the remaining stack top of
*lower* level when a deeper header arrives, despite its comment "Close
previous item at same or higher level") and never closes the popped node
`B` at all (`end_line` stays `None`, so the splitter later skips `B`'s
section); only `C`, still on the stack at end-of-input, is closed to the
final line.  The claim's expected values are `A.end_line = 1` (the line
before `# C`) and every node closed at end-of-input. -/
theorem c1_extract_behavior :
    (extract "# A\n## B\n# C").1 =
      [{ level := 1, title := "A", start_line := 0, end_line := some 0,
         parent := none, children := [1] },
       { level := 2, title := "B", start_line := 1, end_line := none,
         parent := some 0, children := [] },
       { level := 1, title := "C", start_line := 2, end_line := some 2,
         parent := none, children := [] }] := by decide

/-- C2 counterexample: a call with two chunks but one vector (a length
mismatch, which the claim says is rejected before any mutation) is
accepted by `add_document`: the document record is created (with
`num_chunks = 2`) and one chunk record (the silently truncated `zip`) is
appended, and the state is persisted. -/
theorem c2_counterexample :
    (addDocument ⟨[], []⟩ "d1" "t0" "f.txt" "s" "p" ["a", "b"] [[1]]
        "text/plain" none).1.documents =
      [("d1", ⟨"d1", "f.txt", "s", "p", "t0", 2, "text/plain"⟩)] ∧
    (addDocument ⟨[], []⟩ "d1" "t0" "f.txt" "s" "p" ["a", "b"] [[1]]
        "text/plain" none).1.chunks.length = 1 := by decide

/-- C2 amended: `add_document` performs no input validation.  Every call —
mismatched lengths and empty chunk lists included — creates the document
record (recording `num_chunks = len(chunks)`), appends one chunk record
per `zip(chunks, vectors)` pair (`min` of the two lengths), and persists
the mutated state before returning. -/
theorem c2_amended_no_validation (st : StoreState)
    (did cat fn sp pp ct : String) (chunks : List String)
    (vectors : List (List ℚ)) (cml : Option (List Metadata)) :
    (addDocument st did cat fn sp pp chunks vectors ct cml).1.chunks.length
        = st.chunks.length + min chunks.length vectors.length ∧
    (addDocument st did cat fn sp pp chunks vectors ct cml).1.documents
        = dictInsert did (addDocument st did cat fn sp pp chunks vectors ct cml).2.1
            st.documents ∧
    (addDocument st did cat fn sp pp chunks vectors ct cml).2.1.num_chunks
        = chunks.length ∧
    (addDocument st did cat fn sp pp chunks vectors ct cml).2.2
        = persist (addDocument st did cat fn sp pp chunks vectors ct cml).1 := by
  refine ⟨?_, rfl, rfl, rfl⟩
  simp [addDocument, List.enum_length, List.length_zip]

/-- Appending the two projections of each emission, as the splitter's loop
does, builds the projections of the flattened emission list. -/
theorem foldl_emit_append {α β γ : Type} (f : α → List (β × γ)) (l : List α) :
    ∀ acc : List β × List γ,
    l.foldl (fun acc x => (acc.1 ++ (f x).map Prod.fst, acc.2 ++ (f x).map Prod.snd)) acc
      = (acc.1 ++ ((l.map f).flatten).map Prod.fst,
         acc.2 ++ ((l.map f).flatten).map Prod.snd) := by
  induction l with
  | nil => intro acc; simp
  | cons x xs ih =>
    intro acc
    simp only [List.foldl_cons, List.map_cons, List.flatten_cons]
    rw [ih]
    simp [List.append_assoc]

/-- `split` in closed form: the flattened per-node emissions (in catalog
order), or the fallback when they are empty. -/
theorem split_eq_emissions (minc maxc : Nat) (md : String) :
    split minc maxc md =
      (if catalogEmissions maxc md = [] then
        ((extractLines (splitLines md)).1, greedyParagraphSplit maxc md,
         (greedyParagraphSplit maxc md).map (fun _ => fallbackMeta))
      else
        ((extractLines (splitLines md)).1,
         (catalogEmissions maxc md).map Prod.fst,
         (catalogEmissions maxc md).map Prod.snd)) := by
  unfold split catalogEmissions
  dsimp only
  rw [foldl_emit_append
    (fun p => nodeEmission maxc (extractLines (splitLines md)).2
      (fullPath (extractLines (splitLines md)).1 p.1) p.2)
    ((extractLines (splitLines md)).1.enum) ([], [])]
  simp only [List.nil_append]
  set E := ((extractLines (splitLines md)).1.enum.map
      (fun p => nodeEmission maxc (extractLines (splitLines md)).2
        (fullPath (extractLines (splitLines md)).1 p.1) p.2)).flatten with hE
  by_cases h : E = []
  · simp [h]
  · rw [if_neg (by simpa [List.map_eq_nil_iff] using h), if_neg h]

/-- C6: `split` always returns as many metadata entries as chunks, and the
chunk list is the concatenation, in catalog-node order, of each node's
emissions (an oversized section's sub-chunks in local order) — or the
fallback chunks when the catalog pass emitted nothing. -/
theorem c6_chunks_metadata_aligned (minc maxc : Nat) (md : String) :
    ((split minc maxc md).2.1).length = ((split minc maxc md).2.2).length ∧
    ((split minc maxc md).2.1 = (catalogEmissions maxc md).map Prod.fst ∨
      (catalogEmissions maxc md = [] ∧
        (split minc maxc md).2.1 = greedyParagraphSplit maxc md)) := by
  rw [split_eq_emissions]
  by_cases h : catalogEmissions maxc md = []
  · simp [h]
  · simp [h]

/-- C3: the chunk a closed catalog node emits.  The split output is the
flattened per-node emissions (or the fallback), and for a node with
`end_line = some e`: an empty stripped slice of the anchored lines
`[start_line, e]` emits nothing, and a non-empty slice not exceeding
`max_chunk_size` emits exactly that stripped slice as one whole-section
chunk. -/
theorem c3_section_chunks (minc maxc : Nat) (md : String) :
    ((split minc maxc md).2.1 = (catalogEmissions maxc md).map Prod.fst ∨
      (split minc maxc md).2.1 = greedyParagraphSplit maxc md) ∧
    ∀ (path : String) (item : CatalogItem) (e : Nat),
      item.end_line = some e →
      (sectionSlice (extractLines (splitLines md)).2 item e = "" →
        nodeEmission maxc (extractLines (splitLines md)).2 path item = []) ∧
      (sectionSlice (extractLines (splitLines md)).2 item e ≠ "" →
        (sectionSlice (extractLines (splitLines md)).2 item e).length ≤ maxc →
        nodeEmission maxc (extractLines (splitLines md)).2 path item
          = [(sectionSlice (extractLines (splitLines md)).2 item e,
              wholeSectionMeta path item)]) := by
  constructor
  · rw [split_eq_emissions]
    by_cases h : catalogEmissions maxc md = []
    · simp [h]
    · simp [h]
  · intro path item e he
    constructor
    · intro hs
      simp [nodeEmission, he, hs]
    · intro hs hle
      simp [nodeEmission, he, hs, Nat.not_lt.mpr hle]

/-- C3 witness: on `"# T\nbody"` the single node is closed at line `1`, its
slice of the anchored lines is `"# T\n<!-- catalog:T -->"` (non-empty, under
the limit), and its emission is that slice as one whole-section chunk. -/
theorem c3_witness :
    nodeEmission 2000 (extractLines (splitLines "# T\nbody")).2 "T"
        ⟨1, "T", 0, some 1, none, []⟩
      = [(sectionSlice (extractLines (splitLines "# T\nbody")).2
            ⟨1, "T", 0, some 1, none, []⟩ 1,
          wholeSectionMeta "T" ⟨1, "T", 0, some 1, none, []⟩)] :=
  ((c3_section_chunks 200 2000 "# T\nbody").2 "T"
    ⟨1, "T", 0, some 1, none, []⟩ 1 rfl).2 (by decide) (by decide)

/-- A line that is not a header only appends the line to the output. -/
theorem extractStep_no_header (st : ExtractState) (i : Nat) (line : String)
    (h : headerMatch line = none) :
    extractStep st i line = { st with outLines := st.outLines ++ [line] } := by
  simp [extractStep, h]

/-- The extractor's loop over header-free lines leaves arena and stack
untouched and copies the lines through. -/
theorem extract_foldl_no_header (lines : List String) :
    ∀ (i : Nat) (st : ExtractState),
    (∀ l ∈ lines, headerMatch l = none) →
    (List.enumFrom i lines).foldl (fun s p => extractStep s p.1 p.2) st
      = ⟨st.arena, st.stack, st.outLines ++ lines⟩ := by
  induction lines with
  | nil => intro i st _; simp
  | cons l ls ih =>
    intro i st h
    have hl : headerMatch l = none := h l (List.mem_cons_self l ls)
    simp only [List.enumFrom, List.foldl_cons]
    rw [extractStep_no_header st i l hl,
      ih (i + 1) _ (fun x hx => h x (List.mem_cons_of_mem l hx))]
    simp

/-- On header-free input, extraction returns no catalog items and the
anchored text is the input itself. -/
theorem extractLines_no_header (lines : List String)
    (h : ∀ l ∈ lines, headerMatch l = none) :
    extractLines lines = ([], lines) := by
  unfold extractLines
  dsimp only
  rw [show lines.enum = List.enumFrom 0 lines from rfl,
    extract_foldl_no_header lines 0 ⟨[], [], []⟩ h]
  simp

/-- The last guard of the greedy grouping: either the accumulated chunks
(non-empty) or the one-chunk fallback `[content]`. -/
theorem ite_chunks_length_pos (chunks : List String) (content : String) :
    0 < (if chunks ≠ [] then chunks else [content]).length := by
  split
  · next h => exact List.length_pos.mpr h
  · simp

theorem greedy_length_pos (maxc : Nat) (content : String) :
    0 < (greedyParagraphSplit maxc content).length := by
  unfold greedyParagraphSplit
  dsimp only
  exact ite_chunks_length_pos _ _

/-- C5 counterexample: the fallback metadata literal is the Chinese string
`"未分类"`, not the English `"uncategorized"` the claim states: on the
header-free input `"hello"` the single fallback chunk's `catalog_path`
is `"未分类"`. -/
theorem c5_counterexample :
    (split 200 2000 "hello").2.2 = [fallbackMeta] ∧
    getStrD fallbackMeta "catalog_path" "" = "未分类" ∧
    getStrD fallbackMeta "catalog_path" "" ≠ "uncategorized" := by decide

/-- C5 amended: on input with no header line, `extract` returns an empty
node list and `split` falls back to the greedy paragraph grouping over the
whole text, each chunk carrying `catalog_path = catalog_title = "未分类"`
("uncategorized" in Chinese) and `catalog_level = 0`, with at least one
chunk (even for empty text the fallback emits the single chunk
`[content]`). -/
theorem c5_amended_fallback (minc maxc : Nat) (md : String)
    (hnh : ∀ l ∈ splitLines md, headerMatch l = none) :
    (extractLines (splitLines md)).1 = [] ∧
    (split minc maxc md).2.1 = greedyParagraphSplit maxc md ∧
    (split minc maxc md).2.2
      = (greedyParagraphSplit maxc md).map (fun _ => fallbackMeta) ∧
    0 < (split minc maxc md).2.1.length := by
  have hex := extractLines_no_header (splitLines md) hnh
  have hem : catalogEmissions maxc md = [] := by
    unfold catalogEmissions
    dsimp only
    rw [hex]
    rfl
  refine ⟨by rw [hex], ?_, ?_, ?_⟩
  · rw [split_eq_emissions, if_pos hem]
  · rw [split_eq_emissions, if_pos hem]
  · rw [split_eq_emissions, if_pos hem]
    exact greedy_length_pos maxc md

/-- C5 witness: the amended theorem applied to the header-free two-paragraph
input `"hello world\n\nsecond"`. -/
theorem c5_witness :
    (extractLines (splitLines "hello world\n\nsecond")).1 = [] ∧
    (split 200 2000 "hello world\n\nsecond").2.1
      = greedyParagraphSplit 2000 "hello world\n\nsecond" ∧
    (split 200 2000 "hello world\n\nsecond").2.2
      = (greedyParagraphSplit 2000 "hello world\n\nsecond").map
          (fun _ => fallbackMeta) ∧
    0 < (split 200 2000 "hello world\n\nsecond").2.1.length :=
  c5_amended_fallback 200 2000 "hello world\n\nsecond" (by decide)

theorem mem_insertDesc (x y : Nat × ℚ) (l : List (Nat × ℚ)) :
    y ∈ insertDesc x l ↔ y = x ∨ y ∈ l := by
  induction l with
  | nil => simp [insertDesc]
  | cons z zs ih =>
    simp only [insertDesc]
    split
    · simp only [List.mem_cons, ih]
      try tauto
    · simp only [List.mem_cons]
      try tauto

theorem pairwise_insertDesc (x : Nat × ℚ) (l : List (Nat × ℚ))
    (h : l.Pairwise (fun a b => b.2 ≤ a.2)) :
    (insertDesc x l).Pairwise (fun a b => b.2 ≤ a.2) := by
  induction l with
  | nil => simp [insertDesc]
  | cons z zs ih =>
    rw [List.pairwise_cons] at h
    obtain ⟨hz, hzs⟩ := h
    simp only [insertDesc]
    split
    · next hle =>
      rw [List.pairwise_cons]
      refine ⟨fun y hy => ?_, ih hzs⟩
      rcases (mem_insertDesc x y zs).mp hy with rfl | hmem
      · exact hle
      · exact hz y hmem
    · next hgt =>
      rw [List.pairwise_cons]
      refine ⟨fun y hy => ?_, List.pairwise_cons.mpr ⟨hz, hzs⟩⟩
      rcases List.mem_cons.mp hy with rfl | hmem
      · exact le_of_lt (lt_of_not_le hgt)
      · exact le_trans (hz y hmem) (le_of_lt (lt_of_not_le hgt))

/-- The modelled `argsort[::-1]` produces non-increasing scores. -/
theorem pairwise_sortDescBySnd (l : List (Nat × ℚ)) :
    (sortDescBySnd l).Pairwise (fun a b => b.2 ≤ a.2) := by
  unfold sortDescBySnd
  induction l with
  | nil => simp
  | cons x xs ih =>
    rw [List.foldr_cons]
    exact pairwise_insertDesc x _ ih

/-- The collection walk keeps a subsequence of the ranked window. -/
theorem searchWalk_sublist (thr : ℚ) (k : Nat) :
    ∀ (l : List (Nat × ℚ)) (cnt : Nat), (searchWalk thr k l cnt).Sublist l := by
  intro l
  induction l with
  | nil => intro cnt; simp [searchWalk]
  | cons p rest ih =>
    intro cnt
    simp only [searchWalk]
    split
    · exact (ih cnt).cons p
    · split
      · exact (List.nil_sublist rest).cons₂ p
      · exact (ih (cnt + 1)).cons₂ p

/-- Everything the collection walk keeps scores at least the threshold. -/
theorem searchWalk_scores (thr : ℚ) (k : Nat) :
    ∀ (l : List (Nat × ℚ)) (cnt : Nat) (q : Nat × ℚ),
      q ∈ searchWalk thr k l cnt → thr ≤ q.2 := by
  intro l
  induction l with
  | nil => intro cnt q h; simp [searchWalk] at h
  | cons p rest ih =>
    intro cnt q h
    simp only [searchWalk] at h
    split at h
    · exact ih cnt q h
    · next hge =>
      split at h
      · rw [List.mem_singleton] at h
        subst h
        exact not_lt.mp hge
      · rcases List.mem_cons.mp h with rfl | hm
        · exact not_lt.mp hge
        · exact ih (cnt + 1) q hm

/-- The collection walk stops once `top_k` results are accepted. -/
theorem searchWalk_length (thr : ℚ) (k : Nat) :
    ∀ (l : List (Nat × ℚ)) (cnt : Nat), cnt < k →
      (searchWalk thr k l cnt).length + cnt ≤ k := by
  intro l
  induction l with
  | nil =>
    intro cnt h
    simp only [searchWalk, List.length_nil, Nat.zero_add]
    exact h.le
  | cons p rest ih =>
    intro cnt h
    simp only [searchWalk]
    split
    · exact ih cnt h
    · split
      · next hk =>
        simp only [List.length_singleton]
        omega
      · next hk =>
        have := ih (cnt + 1) (by omega)
        simp only [List.length_cons]
        omega

/-- C4: for every similarity function, store state, query vector, `top_k`,
threshold and document filter, `search` returns at most `top_k` results,
each scoring at least the threshold, sorted by non-increasing score; an
empty candidate set yields the empty list. -/
theorem c4_search_contract (sim : List ℚ → List ℚ → ℚ) (st : StoreState)
    (query : List ℚ) (top_k : Nat) (threshold : ℚ) (docFilter : Option String) :
    (search sim st query top_k threshold docFilter).length ≤ top_k ∧
    (∀ r ∈ search sim st query top_k threshold docFilter, threshold ≤ r.score) ∧
    (search sim st query top_k threshold docFilter).Pairwise
      (fun a b => b.score ≤ a.score) ∧
    (candidateChunks st docFilter = [] →
      search sim st query top_k threshold docFilter = []) := by
  unfold search
  dsimp only
  by_cases hc : candidateChunks st docFilter = []
  · simp [hc]
  · rw [if_neg hc]
    refine ⟨?_, ?_, ?_, fun h => absurd h hc⟩
    · rw [List.length_map]
      rcases Nat.eq_zero_or_pos top_k with hk | hk
      · subst hk
        simp [searchWalk]
      · have := searchWalk_length threshold top_k
          (((sortDescBySnd ((candidateChunks st docFilter).enum.map
            (fun p => (p.1, sim p.2.vector query)))).take (top_k * 2))) 0 hk
        omega
    · intro r hr
      rw [List.mem_map] at hr
      obtain ⟨q, hq, rfl⟩ := hr
      exact searchWalk_scores threshold top_k _ 0 q hq
    · rw [List.pairwise_map]
      exact List.Pairwise.sublist (searchWalk_sublist threshold top_k _ 0)
        (List.Pairwise.sublist (List.take_sublist _ _) (pairwise_sortDescBySnd _))

/-- Inserting a key that is not present appends at the end. -/
theorem dictInsert_fresh {α : Type} (k : String) (v : α) (d : Dict α)
    (h : k ∉ d.map Prod.fst) : dictInsert k v d = d ++ [(k, v)] := by
  unfold dictInsert
  rw [if_neg]
  intro hc
  rw [List.any_eq_true] at hc
  obtain ⟨x, hx, hxk⟩ := hc
  rw [decide_eq_true_eq] at hxk
  exact h (hxk ▸ List.mem_map_of_mem Prod.fst hx)

/-- Rebuilding the documents dict from its value list (the `_load` dict
comprehension) reproduces the list when the ids are distinct. -/
theorem rebuild_docs (l : List DocumentMetadata) :
    ∀ acc : Dict DocumentMetadata,
    (∀ m ∈ l, m.document_id ∉ acc.map Prod.fst) →
    (l.map DocumentMetadata.document_id).Nodup →
    l.foldl (fun d m => dictInsert m.document_id m d) acc
      = acc ++ l.map (fun m => (m.document_id, m)) := by
  induction l with
  | nil => intro acc _ _; simp
  | cons m ms ih =>
    intro acc hfresh hnd
    rw [List.map_cons, List.nodup_cons] at hnd
    rw [List.foldl_cons,
      dictInsert_fresh _ _ _ (hfresh m (List.mem_cons_self m ms)),
      ih (acc ++ [(m.document_id, m)]) ?_ hnd.2]
    · simp
    · intro x hx
      rw [List.map_append, List.mem_append]
      rintro (hmem | hmem)
      · exact hfresh x (List.mem_cons_of_mem _ hx) hmem
      · simp only [List.map_cons, List.map_nil, List.mem_singleton] at hmem
        exact hnd.1 (hmem ▸ List.mem_map_of_mem DocumentMetadata.document_id hx)

/-- Loading what `_persist` wrote reproduces the in-memory state, when the
documents dict is well-formed (each key is its record's `document_id`, keys
distinct). -/
theorem load_persist (st : StoreState)
    (hkeys : ∀ p ∈ st.documents, p.1 = p.2.document_id)
    (hnd : (st.documents.map Prod.fst).Nodup) :
    load (persist st) = .ok st := by
  have hchunks : (st.chunks.map serChunk).map deserChunk = st.chunks := by
    rw [List.map_map]
    have : st.chunks.map (deserChunk ∘ serChunk) = st.chunks.map id :=
      List.map_congr_left (fun c _ => by cases c; rfl)
    rw [this, List.map_id]
  have hids : (st.documents.map (·.2)).map DocumentMetadata.document_id
      = st.documents.map Prod.fst := by
    rw [List.map_map]
    exact List.map_congr_left (fun p hp => (hkeys p hp).symm)
  have hdocs : (st.documents.map (·.2)).foldl
      (fun d m => dictInsert m.document_id m d) [] = st.documents := by
    rw [rebuild_docs _ [] (by simp) (by rw [hids]; exact hnd), List.nil_append,
      List.map_map]
    have : st.documents.map ((fun m => (m.document_id, m)) ∘ (·.2))
        = st.documents.map id :=
      List.map_congr_left (fun p hp => by
        simp only [Function.comp_apply, id_eq, ← hkeys p hp])
    rw [this, List.map_id]
  unfold load persist
  simp only [hchunks, hdocs]
  rfl

/-- C9: after `add_document`, a fresh store loaded from the persisted
artifacts reproduces the records: `list_documents` and
`get_chunks_by_document` agree with the in-memory store that was persisted
(vector values exactly, in the rational model of `float32` round trips).
Hypotheses: the pre-state's documents dict is well-formed and the new
document id is fresh (a new `uuid4` in the source). -/
theorem c9_round_trip (st : StoreState) (did cat fn sp pp ct : String)
    (chunks : List String) (vectors : List (List ℚ))
    (cml : Option (List Metadata))
    (hkeys : ∀ p ∈ st.documents, p.1 = p.2.document_id)
    (hnd : (st.documents.map Prod.fst).Nodup)
    (hfresh : did ∉ st.documents.map Prod.fst) :
    ∃ reloaded,
      load (addDocument st did cat fn sp pp chunks vectors ct cml).2.2
          = .ok reloaded ∧
      listDocuments reloaded
          = listDocuments (addDocument st did cat fn sp pp chunks vectors ct cml).1 ∧
      ∀ docId, getChunksByDocument reloaded docId
          = getChunksByDocument
              (addDocument st did cat fn sp pp chunks vectors ct cml).1 docId := by
  refine ⟨(addDocument st did cat fn sp pp chunks vectors ct cml).1,
    ?_, rfl, fun _ => rfl⟩
  apply load_persist
  · dsimp only
    rw [dictInsert_fresh _ _ _ hfresh]
    intro p hp
    rcases List.mem_append.mp hp with hmem | hmem
    · exact hkeys p hmem
    · rw [List.mem_singleton] at hmem
      subst hmem
      rfl
  · dsimp only
    rw [dictInsert_fresh _ _ _ hfresh, List.map_append]
    simp only [List.map_cons, List.map_nil]
    rw [List.nodup_append]
    exact ⟨hnd, List.nodup_singleton _, by
      intro a ha hb
      rw [List.mem_singleton] at hb
      exact hfresh (hb ▸ ha)⟩

/-- C9 witness: the round trip applied to an `add_document` call on the
empty store. -/
theorem c9_witness :
    ∃ reloaded,
      load (addDocument ⟨[], []⟩ "d1" "t0" "f.txt" "s" "p" ["hello", "world"]
          [[1, 0], [0, 1]] "text/plain" none).2.2 = .ok reloaded ∧
      listDocuments reloaded
          = listDocuments (addDocument ⟨[], []⟩ "d1" "t0" "f.txt" "s" "p"
              ["hello", "world"] [[1, 0], [0, 1]] "text/plain" none).1 ∧
      ∀ docId, getChunksByDocument reloaded docId
          = getChunksByDocument (addDocument ⟨[], []⟩ "d1" "t0" "f.txt" "s" "p"
              ["hello", "world"] [[1, 0], [0, 1]] "text/plain" none).1 docId :=
  c9_round_trip ⟨[], []⟩ "d1" "t0" "f.txt" "s" "p" "text/plain"
    ["hello", "world"] [[1, 0], [0, 1]] none (by decide) (by decide) (by decide)

/-- C8: construction loads the durable state; absent artifacts yield the
empty store, and an artifact that exists but cannot be parsed makes
loading fail (the parse error propagates out of `_load` / `__init__`)
whichever artifact is corrupt. -/
theorem c8_load_fail_fast :
    load ⟨.absent, .absent⟩ = .ok ⟨[], []⟩ ∧
    (∀ d, exceptOk (load ⟨.corrupt, d⟩) = false) ∧
    (∀ i, exceptOk (load ⟨i, .corrupt⟩) = false) := by
  refine ⟨rfl, fun d => rfl, fun i => ?_⟩
  cases i <;> rfl

/-- `addToGroups` leaves the keys unchanged when the chunk's path is
already a group, else appends the new key. -/
theorem addToGroups_keys (gs : Dict (List ChunkRecord)) (c : ChunkRecord) :
    (addToGroups gs c).map Prod.fst
      = if gs.any (·.1 = chunkCatalogPath c) then gs.map Prod.fst
        else gs.map Prod.fst ++ [chunkCatalogPath c] := by
  unfold addToGroups
  dsimp only
  split
  · next h =>
    rw [List.map_map]
    exact List.map_congr_left (fun g _ => by by_cases hg : g.1 = chunkCatalogPath c <;> simp [hg])
  · next h => simp

/-- Group keys are distinct throughout the grouping fold. -/
theorem buildGroups_foldl_nodup (cs : List ChunkRecord) :
    ∀ gs : Dict (List ChunkRecord), ((gs.map Prod.fst)).Nodup →
    (((cs.foldl addToGroups gs).map Prod.fst)).Nodup := by
  induction cs with
  | nil => intro gs h; exact h
  | cons c cs ih =>
    intro gs h
    rw [List.foldl_cons]
    refine ih _ ?_
    rw [addToGroups_keys]
    split
    · exact h
    · next hany =>
      rw [List.nodup_append]
      refine ⟨h, List.nodup_singleton _, fun a ha hb => ?_⟩
      rw [List.mem_singleton] at hb
      subst hb
      rw [List.mem_map] at ha
      obtain ⟨g, hg, hga⟩ := ha
      exact hany (List.any_eq_true.mpr ⟨g, hg, by simp [hga]⟩)

/-- `buildGroups` produces distinct group keys. -/
theorem buildGroups_nodup (cs : List ChunkRecord) :
    ((buildGroups cs).map Prod.fst).Nodup :=
  buildGroups_foldl_nodup cs [] (by simp)

/-- Every group in the grouping fold is non-empty. -/
theorem buildGroups_foldl_nonempty (cs : List ChunkRecord) :
    ∀ gs : Dict (List ChunkRecord), (∀ g ∈ gs, g.2 ≠ []) →
    ∀ g ∈ cs.foldl addToGroups gs, g.2 ≠ [] := by
  induction cs with
  | nil => intro gs h; exact h
  | cons c cs ih =>
    intro gs h
    rw [List.foldl_cons]
    refine ih _ ?_
    unfold addToGroups
    dsimp only
    split
    · intro g hg
      rw [List.mem_map] at hg
      obtain ⟨g₀, hg₀, rfl⟩ := hg
      by_cases hk : g₀.1 = chunkCatalogPath c <;> simp [hk]
      exact h g₀ hg₀
    · intro g hg
      rcases List.mem_append.mp hg with hmem | hmem
      · exact h g hmem
      · rw [List.mem_singleton] at hmem
        subst hmem
        simp

/-- Every group of `buildGroups` is non-empty. -/
theorem buildGroups_nonempty (cs : List ChunkRecord) :
    ∀ g ∈ buildGroups cs, g.2 ≠ [] :=
  buildGroups_foldl_nonempty cs [] (by simp)

/-- Appending a chunk updates exactly its own group's member list. -/
theorem groupLookup_addToGroups (gs : Dict (List ChunkRecord)) (c : ChunkRecord)
    (path : String) :
    groupLookup (addToGroups gs c) path
      = if chunkCatalogPath c = path then groupLookup gs path ++ [c]
        else groupLookup gs path := by
  unfold addToGroups groupLookup
  dsimp only
  split
  · next hany =>
    rw [List.find?_map]
    have hpred : ((fun g : String × List ChunkRecord => decide (g.1 = path)) ∘
        (fun g : String × List ChunkRecord =>
          if g.1 = chunkCatalogPath c then (g.1, g.2 ++ [c]) else g))
        = (fun g : String × List ChunkRecord => decide (g.1 = path)) := by
      funext g
      by_cases hg : g.1 = chunkCatalogPath c <;> simp [hg]
    rw [hpred]
    rcases hfind : gs.find? (fun g : String × List ChunkRecord => decide (g.1 = path))
      with _ | g
    · by_cases hcp : chunkCatalogPath c = path
      · exfalso
        rw [List.find?_eq_none] at hfind
        rw [List.any_eq_true] at hany
        obtain ⟨g, hg, hgk⟩ := hany
        rw [decide_eq_true_eq] at hgk
        exact hfind g hg (by simp [hgk, hcp])
      · simp [hcp]
    · have hgp : g.1 = path := by
        have := List.find?_some hfind
        rwa [decide_eq_true_eq] at this
      by_cases hcp : chunkCatalogPath c = path
      · have hgc : g.1 = chunkCatalogPath c := by rw [hgp, hcp]
        simp [hcp, hgc]
      · have hgc : ¬ g.1 = chunkCatalogPath c := fun hh => hcp (by rw [← hh, hgp])
        simp [hcp, hgc]
  · next hany =>
    rw [List.find?_append]
    rcases hfind : gs.find? (fun g : String × List ChunkRecord => decide (g.1 = path))
      with _ | g
    · by_cases hcp : chunkCatalogPath c = path
      · simp [hcp]
      · simp [hcp, Ne.symm hcp]
    · by_cases hcp : chunkCatalogPath c = path
      · exfalso
        have hgp : g.1 = path := by
          have := List.find?_some hfind
          rwa [decide_eq_true_eq] at this
        exact hany (List.any_eq_true.mpr
          ⟨g, List.mem_of_find?_eq_some hfind, by simp [hgp, hcp]⟩)
      · simp [hcp]

/-- The grouping fold collects exactly the chunks with each path, in scan
order. -/
theorem groupLookup_foldl (cs : List ChunkRecord) :
    ∀ (gs : Dict (List ChunkRecord)) (seen : List ChunkRecord),
    (∀ path, groupLookup gs path
      = seen.filter (fun c => chunkCatalogPath c = path)) →
    ∀ path, groupLookup (cs.foldl addToGroups gs) path
      = (seen ++ cs).filter (fun c => chunkCatalogPath c = path) := by
  induction cs with
  | nil => intro gs seen hinv path; rw [List.foldl_nil, List.append_nil]; exact hinv path
  | cons c cs ih =>
    intro gs seen hinv path
    rw [List.foldl_cons]
    have hstep : ∀ path', groupLookup (addToGroups gs c) path'
        = (seen ++ [c]).filter (fun x => chunkCatalogPath x = path') := by
      intro path'
      rw [groupLookup_addToGroups, List.filter_append, hinv path']
      by_cases hcp : chunkCatalogPath c = path' <;> simp [hcp]
    have := ih (addToGroups gs c) (seen ++ [c]) hstep path
    simpa [List.append_assoc] using this

/-- `buildGroups` member lists are the candidate chunks with that path, in
candidate order. -/
theorem groupLookup_buildGroups (cs : List ChunkRecord) (path : String) :
    groupLookup (buildGroups cs) path
      = cs.filter (fun c => chunkCatalogPath c = path) := by
  have := groupLookup_foldl cs [] [] (fun p => by simp [groupLookup]) path
  simpa using this

/-- With distinct keys, membership determines `find?`. -/
theorem find?_of_mem_nodup {α : Type} (l : List (String × α)) (k : String) (v : α)
    (hnd : (l.map Prod.fst).Nodup) (hmem : (k, v) ∈ l) :
    l.find? (·.1 = k) = some (k, v) := by
  induction l with
  | nil => cases hmem
  | cons p ps ih =>
    rw [List.map_cons, List.nodup_cons] at hnd
    rcases List.mem_cons.mp hmem with rfl | hmem'
    · exact List.find?_cons_of_pos ps (by simp)
    · by_cases hk : p.1 = k
      · exact absurd (hk ▸ List.mem_map_of_mem Prod.fst hmem') hnd.1
      · rw [List.find?_cons_of_neg ps (by simp [hk])]
        exact ih hnd.2 hmem'

/-- A group entry of `buildGroups` holds exactly the candidate chunks with
its path, in candidate order. -/
theorem buildGroups_entry (cs : List ChunkRecord) (path : String)
    (g : List ChunkRecord) (hmem : (path, g) ∈ buildGroups cs) :
    g = cs.filter (fun c => chunkCatalogPath c = path) := by
  have h := groupLookup_buildGroups cs path
  rw [groupLookup, find?_of_mem_nodup _ _ _ (buildGroups_nodup cs) hmem] at h
  simpa using h

/-- A result emitted for a group carries the group's key as its
`catalog_path`. -/
theorem emitGroup_path (ql : String) (g : String × List ChunkRecord)
    (r : CatalogGroupResult) (h : emitGroup ql g = some r) :
    r.catalog_path = g.1 := by
  obtain ⟨p, l⟩ := g
  cases l with
  | nil => simp [emitGroup] at h
  | cons c0 rest =>
    simp only [emitGroup] at h
    split at h
    · rw [Option.some.injEq] at h
      subst h
      rfl
    · cases h

/-- One loop iteration appends the group's emission (if any), given no
earlier result already uses the group's path (so the content-branch
dedup check never suppresses it). -/
theorem scfStep_eq (ql : String) (acc : List CatalogGroupResult)
    (g : String × List ChunkRecord)
    (hfresh : ∀ r ∈ acc, r.catalog_path ≠ g.1) :
    scfStep ql acc g = acc ++ (emitGroup ql g).toList := by
  obtain ⟨p, l⟩ := g
  cases l with
  | nil => simp [scfStep, emitGroup]
  | cons c0 rest =>
    simp only [scfStep, emitGroup]
    by_cases hA : (isSubstr ql (pyLower p)
        || isSubstr ql (pyLower (getStrD c0.metadata "catalog_title" ""))) = true
    · rw [if_pos hA, if_pos (by rw [Bool.or_eq_true]; exact Or.inl hA)]
      simp
    · rw [if_neg hA]
      by_cases hB : ((c0 :: rest).any (fun c => isSubstr ql (pyLower c.content))) = true
      · have hdup : ¬ (acc.any (·.catalog_path = p)) = true := by
          rw [List.any_eq_true]
          rintro ⟨r, hr, hrp⟩
          rw [decide_eq_true_eq] at hrp
          exact hfresh r hr hrp
        rw [if_pos hB, if_neg hdup,
          if_pos (by rw [Bool.or_eq_true]; exact Or.inr hB)]
        simp
      · rw [if_neg hB, if_neg (by rw [Bool.or_eq_true]; rintro (h | h); exacts [hA h, hB h])]
        simp

/-- The whole loop of `search_catalog_fulltext` collects one emission per
matching group, in group order, when the group keys are distinct. -/
theorem scf_foldl_eq (ql : String) (groups : Dict (List ChunkRecord)) :
    ∀ acc : List CatalogGroupResult,
    ((groups.map Prod.fst).Nodup) →
    (∀ g ∈ groups, ∀ r ∈ acc, r.catalog_path ≠ g.1) →
    groups.foldl (scfStep ql) acc = acc ++ groups.filterMap (emitGroup ql) := by
  induction groups with
  | nil => intro acc _ _; simp
  | cons g gs ih =>
    intro acc hnd hfresh
    rw [List.map_cons, List.nodup_cons] at hnd
    rw [List.foldl_cons, scfStep_eq ql acc g (hfresh g (List.mem_cons_self g gs)),
      ih (acc ++ (emitGroup ql g).toList) hnd.2 ?_]
    · rw [List.filterMap_cons]
      rcases he : emitGroup ql g with _ | r <;> simp [List.append_assoc]
    · intro g' hg' r hr
      rcases List.mem_append.mp hr with hmem | hmem
      · exact hfresh g' (List.mem_cons_of_mem g hg') r hmem
      · rcases he : emitGroup ql g with _ | r₀
        · rw [he] at hmem; cases hmem
        · rw [he, Option.toList_some, List.mem_singleton] at hmem
          subst hmem
          rw [emitGroup_path ql g r he]
          intro hgg
          exact hnd.1 (hgg ▸ List.mem_map_of_mem Prod.fst hg')

/-- No emission of groups avoiding `path` survives the path filter. -/
theorem filter_filterMap_not_mem (ql path : String) :
    ∀ groups : Dict (List ChunkRecord), path ∉ groups.map Prod.fst →
    ((groups.filterMap (emitGroup ql)).filter (·.catalog_path = path)) = [] := by
  intro groups
  induction groups with
  | nil => intro _; rfl
  | cons g gs ih =>
    intro hnm
    rw [List.map_cons] at hnm
    have hg1 : g.1 ≠ path := fun h => hnm (h ▸ List.mem_cons_self _ _)
    have hrest : path ∉ gs.map Prod.fst := fun h => hnm (List.mem_cons_of_mem _ h)
    rw [List.filterMap_cons]
    rcases he : emitGroup ql g with _ | r
    · exact ih hrest
    · rw [List.filter_cons, if_neg ?_]
      · exact ih hrest
      · rw [emitGroup_path ql g r he]
        simp [hg1]

/-- The path filter of the emission list of a matching group is exactly
that group's single emission. -/
theorem filterMap_emit_filter (ql path : String) (g : List ChunkRecord)
    (r : CatalogGroupResult) :
    ∀ groups : Dict (List ChunkRecord), (groups.map Prod.fst).Nodup →
    (path, g) ∈ groups → emitGroup ql (path, g) = some r →
    ((groups.filterMap (emitGroup ql)).filter (·.catalog_path = path)) = [r] := by
  intro groups
  induction groups with
  | nil => intro _ hmem _; cases hmem
  | cons h gs ih =>
    intro hnd hmem hemit
    rw [List.map_cons, List.nodup_cons] at hnd
    rcases List.mem_cons.mp hmem with rfl | hmem'
    · rw [List.filterMap_cons, hemit, List.filter_cons, if_pos ?_]
      · rw [filter_filterMap_not_mem ql path gs hnd.1]
      · rw [emitGroup_path ql (path, g) r hemit]
        simp
    · have hne : h.1 ≠ path := fun hh =>
        hnd.1 (hh ▸ List.mem_map_of_mem Prod.fst hmem')
      rw [List.filterMap_cons]
      rcases he : emitGroup ql h with _ | r'
      · exact ih hnd.2 hmem' hemit
      · rw [List.filter_cons, if_neg ?_]
        · exact ih hnd.2 hmem' hemit
        · rw [emitGroup_path ql h r' he]
          simp [hne]

/-- Result paths are drawn from the group keys, in order. -/
theorem emit_paths_sublist (ql : String) :
    ∀ groups : Dict (List ChunkRecord),
    ((groups.filterMap (emitGroup ql)).map (·.catalog_path)).Sublist
      (groups.map Prod.fst) := by
  intro groups
  induction groups with
  | nil => simp
  | cons g gs ih =>
    rw [List.filterMap_cons, List.map_cons]
    rcases he : emitGroup ql g with _ | r
    · exact ih.cons g.1
    · rw [List.map_cons, emitGroup_path ql g r he]
      exact ih.cons₂ g.1

/-- `search_catalog_fulltext` in closed form: one emission per matching
group of the candidate chunks, in group-discovery order. -/
theorem scf_eq_filterMap (st : StoreState) (q : String) (f : Option String) :
    searchCatalogFulltext st q f
      = (buildGroups (candidateChunks st f)).filterMap (emitGroup (pyLower q)) := by
  unfold searchCatalogFulltext
  dsimp only
  by_cases hc : candidateChunks st f = []
  · rw [if_pos hc, hc]
    rfl
  · rw [if_neg hc]
    exact (scf_foldl_eq (pyLower q) (buildGroups (candidateChunks st f)) []
      (buildGroups_nodup _) (by intro g _ r hr; cases hr)).trans
      (List.nil_append _)

/-- C7: each catalog group is emitted at most once (result paths are
distinct), and a group whose path or title matches the query yields
exactly one result — `mkGroupResult`, whose `chunks` are the member
contents in stored order and whose `content` joins them with a blank line
— even though its member contents may also match; the group's members are
exactly the candidate chunks with its path, in candidate order. -/
theorem c7_fulltext_group_once (st : StoreState) (q : String) (f : Option String) :
    ((searchCatalogFulltext st q f).map (·.catalog_path)).Nodup ∧
    ∀ (path : String) (c0 : ChunkRecord) (rest : List ChunkRecord),
      (path, c0 :: rest) ∈ buildGroups (candidateChunks st f) →
      (isSubstr (pyLower q) (pyLower path)
        || isSubstr (pyLower q) (pyLower (getStrD c0.metadata "catalog_title" ""))) = true →
      ((searchCatalogFulltext st q f).filter (·.catalog_path = path))
          = [mkGroupResult path (c0 :: rest)] ∧
      c0 :: rest = (candidateChunks st f).filter
          (fun c => chunkCatalogPath c = path) := by
  constructor
  · rw [scf_eq_filterMap]
    exact List.Nodup.sublist (emit_paths_sublist (pyLower q) _) (buildGroups_nodup _)
  · intro path c0 rest hmem hmatch
    refine ⟨?_, buildGroups_entry _ _ _ hmem⟩
    rw [scf_eq_filterMap]
    refine filterMap_emit_filter (pyLower q) path (c0 :: rest) _ _
      (buildGroups_nodup _) hmem ?_
    unfold emitGroup
    dsimp only
    rw [if_pos (by rw [Bool.or_eq_true]; exact Or.inl hmatch)]

/-- C7 witness: a store with two chunks under the catalog path `"Doc"`,
queried with `"doc"` (matching the path case-insensitively, and also
occurring in the second chunk's content): the single grouped result holds
both member contents in stored order, and the group is exactly the
candidate chunks with that path. -/
theorem c7_witness :
    ((searchCatalogFulltext
        ⟨[⟨"d:0", "d", "alpha", [1],
            [("catalog_path", MValue.s "Doc"), ("catalog_title", MValue.s "Title"),
             ("catalog_level", MValue.n 1)]⟩,
          ⟨"d:1", "d", "doc mention", [1],
            [("catalog_path", MValue.s "Doc"), ("catalog_title", MValue.s "Title"),
             ("catalog_level", MValue.n 1)]⟩], []⟩ "doc" none).filter
        (·.catalog_path = "Doc"))
      = [mkGroupResult "Doc"
          [⟨"d:0", "d", "alpha", [1],
            [("catalog_path", MValue.s "Doc"), ("catalog_title", MValue.s "Title"),
             ("catalog_level", MValue.n 1)]⟩,
           ⟨"d:1", "d", "doc mention", [1],
            [("catalog_path", MValue.s "Doc"), ("catalog_title", MValue.s "Title"),
             ("catalog_level", MValue.n 1)]⟩]] ∧
    [(⟨"d:0", "d", "alpha", [1],
        [("catalog_path", MValue.s "Doc"), ("catalog_title", MValue.s "Title"),
         ("catalog_level", MValue.n 1)]⟩ : ChunkRecord),
     ⟨"d:1", "d", "doc mention", [1],
        [("catalog_path", MValue.s "Doc"), ("catalog_title", MValue.s "Title"),
         ("catalog_level", MValue.n 1)]⟩]
      = (candidateChunks
          ⟨[⟨"d:0", "d", "alpha", [1],
              [("catalog_path", MValue.s "Doc"), ("catalog_title", MValue.s "Title"),
               ("catalog_level", MValue.n 1)]⟩,
            ⟨"d:1", "d", "doc mention", [1],
              [("catalog_path", MValue.s "Doc"), ("catalog_title", MValue.s "Title"),
               ("catalog_level", MValue.n 1)]⟩], []⟩ none).filter
          (fun c => chunkCatalogPath c = "Doc") :=
  (c7_fulltext_group_once
    ⟨[⟨"d:0", "d", "alpha", [1],
        [("catalog_path", MValue.s "Doc"), ("catalog_title", MValue.s "Title"),
         ("catalog_level", MValue.n 1)]⟩,
      ⟨"d:1", "d", "doc mention", [1],
        [("catalog_path", MValue.s "Doc"), ("catalog_title", MValue.s "Title"),
         ("catalog_level", MValue.n 1)]⟩], []⟩ "doc" none).2 "Doc"
    ⟨"d:0", "d", "alpha", [1],
      [("catalog_path", MValue.s "Doc"), ("catalog_title", MValue.s "Title"),
       ("catalog_level", MValue.n 1)]⟩
    [⟨"d:1", "d", "doc mention", [1],
      [("catalog_path", MValue.s "Doc"), ("catalog_title", MValue.s "Title"),
       ("catalog_level", MValue.n 1)]⟩] (by decide) (by decide)

/-- The spec's retrieval scenario shape under a concrete instantiation of
the similarity parameter (`Rat` multiplication does not reduce in the
kernel, so the witness similarity reads the first vector component, which
ranks `[1, 0]` above `[0, 1]`): two stored chunks, `top_k = 1`,
`threshold = 0` retrieve `"hello world"`. -/
theorem search_scenario_example :
    ((search (fun v _ => v.headD 0)
        ⟨[⟨"d:0", "d", "hello world", [1, 0], []⟩,
          ⟨"d:1", "d", "goodbye world", [0, 1], []⟩],
         [("d", ⟨"d", "f.txt", "s", "p", "t0", 2, "text/plain"⟩)]⟩
        [1, 0] 1 0 none).map (·.content)) = ["hello world"] := by decide

/-- The empty needle is a substring of everything (Python `"" in s`). -/
theorem isSubList_nil (cs : List Char) : isSubList [] cs = true := by
  cases cs <;> simp [isSubList, isPrefixList]

/-- A `filterMap` that always fires is a `map`. -/
theorem filterMap_eq_map_of_all_some {α β : Type} (fo : α → Option β) (m : α → β) :
    ∀ l : List α, (∀ x ∈ l, fo x = some (m x)) → l.filterMap fo = l.map m := by
  intro l
  induction l with
  | nil => intro _; rfl
  | cons x xs ih =>
    intro h
    rw [List.filterMap_cons, h x (List.mem_cons_self x xs), List.map_cons,
      ih (fun y hy => h y (List.mem_cons_of_mem x hy))]

/-- C10: for the empty query, every candidate group title-matches (the
empty string is a substring of every `catalog_path`), so
`search_catalog_fulltext` returns one grouped result per catalog group —
the whole catalog — rather than an empty list. -/
theorem c10_empty_query_enumerates (st : StoreState) (f : Option String) :
    searchCatalogFulltext st "" f
      = (buildGroups (candidateChunks st f)).map (fun g => mkGroupResult g.1 g.2) ∧
    (searchCatalogFulltext st "" f).length
      = (buildGroups (candidateChunks st f)).length := by
  have hall : ∀ g ∈ buildGroups (candidateChunks st f),
      emitGroup (pyLower "") g = some (mkGroupResult g.1 g.2) := by
    intro g hg
    obtain ⟨p, l⟩ := g
    cases l with
    | nil => exact absurd rfl (buildGroups_nonempty _ (p, []) hg)
    | cons c0 rest =>
      unfold emitGroup
      dsimp only
      rw [if_pos]
      rw [Bool.or_eq_true]
      exact Or.inl (by rw [Bool.or_eq_true]; exact Or.inl (isSubList_nil _))
  have h1 : searchCatalogFulltext st "" f
      = (buildGroups (candidateChunks st f)).map (fun g => mkGroupResult g.1 g.2) := by
    rw [scf_eq_filterMap]
    exact filterMap_eq_map_of_all_some _ _ _ hall
  exact ⟨h1, by rw [h1, List.length_map]⟩

end HfRag
